import Mathlib

/-!
Shallow embedding of `src/sage/graphs/convexity_properties.pyx`
(class `ConvexityProperties`: convex hulls and the hull number of an
undirected graph).

Vertex indices are `Fin n`; a bitset of capacity `n` is a `Finset (Fin n)`;
the binary matrix `_cache_hull_pairs` (one row per unordered pair `i < j`)
is a function `Fin n → Fin n → Finset (Fin n)` consulted only at pairs
`i < j`, matching the triangular layout of the source.
-/

/-- One step of the inner loop of `_bitset_convex_hull`: for the pair
`(i, j)` with `i < j`, if both endpoints are in the current set, union in
the cached row for the pair (`bitset_union(hull, hull, p_bitset[0])`).
The source checks `bitset_in(hull, i)` once per row before scanning `j`;
since no union can fire inside row `i` while `i` is outside the set (the
set cannot change during a skipped row), checking `i` at every inner step
is equivalent to the source's row-skip. -/
def rowStep {n : Nat} (cache : Fin n → Fin n → Finset (Fin n)) (i : Fin n)
    (S : Finset (Fin n)) (j : Fin n) : Finset (Fin n) :=
  if i < j ∧ i ∈ S ∧ j ∈ S then S ∪ cache i j else S

/-- One full pass of `_bitset_convex_hull` over all pairs `i < j` in
lexicographic order (the two nested `for` loops of the source). -/
def onePass {n : Nat} (cache : Fin n → Fin n → Finset (Fin n))
    (S : Finset (Fin n)) : Finset (Fin n) :=
  (List.finRange n).foldl (fun T i => (List.finRange n).foldl (rowStep cache i) T) S

/-- The `while True` loop of `_bitset_convex_hull`, literally: run one pass,
return when the cardinality did not change (the pass added no vertex),
otherwise loop on the grown set. Terminates because the cardinality
strictly increases at every non-final pass and is bounded by `n`. -/
def closureWhile {n : Nat} (cache : Fin n → Fin n → Finset (Fin n))
    (S : Finset (Fin n)) : Finset (Fin n) :=
  if h : (onePass cache S).card = S.card then onePass cache S
  else closureWhile cache (onePass cache S)
termination_by n - S.card
decreasing_by
  have hrow : ∀ (i : Fin n) (T : Finset (Fin n)) (j : Fin n), T ⊆ rowStep cache i T j := by
    intro i T j
    unfold rowStep
    split
    · exact Finset.subset_union_left
    · exact subset_rfl
  have hfold : ∀ {β : Type} (step : Finset (Fin n) → β → Finset (Fin n)),
      (∀ T b, T ⊆ step T b) → ∀ (l : List β) (T), T ⊆ l.foldl step T := by
    intro β step hstep l
    induction l with
    | nil => intro T; exact subset_rfl
    | cons b l ih => intro T; exact (hstep T b).trans (ih _)
  have hsub : S ⊆ onePass cache S :=
    hfold _ (fun T i => hfold _ (hrow i) _ T) _ S
  have h1 : S.card ≤ (onePass cache S).card := Finset.card_le_card hsub
  have h2 : (onePass cache S).card ≤ n := by
    simpa using Finset.card_le_univ (onePass cache S)
  omega

/-- Number of passes executed by the `while True` loop of
`_bitset_convex_hull` (every execution of the loop body counts, including
the final pass that detects the fixed point). -/
def closureWhileCount {n : Nat} (cache : Fin n → Fin n → Finset (Fin n))
    (S : Finset (Fin n)) : Nat :=
  if h : (onePass cache S).card = S.card then 1
  else 1 + closureWhileCount cache (onePass cache S)
termination_by n - S.card
decreasing_by
  have hrow : ∀ (i : Fin n) (T : Finset (Fin n)) (j : Fin n), T ⊆ rowStep cache i T j := by
    intro i T j
    unfold rowStep
    split
    · exact Finset.subset_union_left
    · exact subset_rfl
  have hfold : ∀ {β : Type} (step : Finset (Fin n) → β → Finset (Fin n)),
      (∀ T b, T ⊆ step T b) → ∀ (l : List β) (T), T ⊆ l.foldl step T := by
    intro β step hstep l
    induction l with
    | nil => intro T; exact subset_rfl
    | cons b l ih => intro T; exact (hstep T b).trans (ih _)
  have hsub : S ⊆ onePass cache S :=
    hfold _ (fun T i => hfold _ (hrow i) _ T) _ S
  have h1 : S.card ≤ (onePass cache S).card := Finset.card_le_card hsub
  have h2 : (onePass cache S).card ≤ n := by
    simpa using Finset.card_le_univ (onePass cache S)
  omega

/-- Fuel-indexed version of the closure loop, used as the executable form of
`closureWhile`. The fuel only bounds the number of passes; `n + 1` units are
provably never exhausted (`closureWhile_eq_fuel`, `bitset_convex_hull_fix`). -/
def closureAux {n : Nat} (cache : Fin n → Fin n → Finset (Fin n)) :
    Nat → Finset (Fin n) → Finset (Fin n)
  | 0, S => S
  | fuel + 1, S =>
    if (onePass cache S).card = S.card then onePass cache S
    else closureAux cache fuel (onePass cache S)

/-- Fuel-indexed pass counter matching `closureAux`; with fuel `n + 1` it
computes exactly `closureWhileCount`. -/
def closurePassCount {n : Nat} (cache : Fin n → Fin n → Finset (Fin n)) :
    Nat → Finset (Fin n) → Nat
  | 0, _ => 0
  | fuel + 1, S =>
    if (onePass cache S).card = S.card then 1
    else 1 + closurePassCount cache fuel (onePass cache S)

/-- `_bitset_convex_hull`: compute the convex hull of a set of vertices
given as a bitset. Executable form of the source's `while True` loop
(`closureWhile_eq_fuel` proves the two agree). -/
def bitset_convex_hull {n : Nat} (cache : Fin n → Fin n → Finset (Fin n))
    (S : Finset (Fin n)) : Finset (Fin n) :=
  closureAux cache (n + 1) S

/-- A set `T` is convex with respect to the cached pair rows: for every pair
`i < j` of members, the cached row of vertices on shortest `i`-`j` paths is
contained in `T`. -/
def isConvex {n : Nat} (cache : Fin n → Fin n → Finset (Fin n))
    (T : Finset (Fin n)) : Prop :=
  ∀ i j : Fin n, i < j → i ∈ T → j ∈ T → cache i j ⊆ T

/-- `bitset_set_first_n(bits, k)`: the bitset with exactly the first `k`
bits set. -/
def set_first_n (n k : Nat) : Finset (Fin n) :=
  Finset.univ.filter (fun i => i.val < k)

/-- `bitset_list`: the members of a bitset in increasing order (the order in
which the underlying bits are scanned). -/
def bitset_list {n : Nat} (S : Finset (Fin n)) : List (Fin n) :=
  (List.finRange n).filter (fun i => i ∈ S)

/-- Row of `_cache_hull_pairs` built in `__init__` for the pair `(i, j)`:
the set of all `k` with `d_i[k] + d_j[k] == d_ij`, where `d` is the
all-pairs distance matrix returned by the distance oracle. -/
def cacheRow {n : Nat} (d : Fin n → Fin n → Nat) (i j : Fin n) : Finset (Fin n) :=
  Finset.univ.filter (fun k => d i k + d j k = d i j)

/-- The state held by a `ConvexityProperties` instance after `__init__`:
the vertex count `_n`, the two label translation tables
(`_list_integers_to_vertices` as a function from indices, and
`_dict_vertices_to_integers`), and the cached pair rows
(`_cache_hull_pairs`). -/
structure ConvexityProperties (V : Type) where
  n : Nat
  verts : Fin n → V
  toInt : V → Fin n
  cache : Fin n → Fin n → Finset (Fin n)

/-- Modelled from the spec: the graph input at the constructor boundary
(spec, External Interfaces). The actual `Graph`/`DiGraph` classes and the
`c_distances_all_pairs` oracle are outside the analysed source, so a graph
is a record of the data the constructor extracts from it: a directedness
flag, the vertex count, the two label tables, and the oracle's all-pairs
distance matrix. -/
structure InputGraph (V : Type) where
  directed : Bool
  n : Nat
  verts : Fin n → V
  toInt : V → Fin n
  dist : Fin n → Fin n → Nat

/-- `__init__`: reject directed graphs with a `NotImplementedError`,
otherwise build the instance, filling the cache row of every pair `i < j`
from the distance matrix. -/
def ConvexityProperties.make {V : Type} (G : InputGraph V) :
    Except String (ConvexityProperties V) :=
  if G.directed then
    Except.error ("this is currently implemented for Graphs only, " ++
      "but only minor updates are needed if you want " ++
      "to make it support DiGraphs too")
  else
    Except.ok { n := G.n, verts := G.verts, toInt := G.toInt, cache := cacheRow G.dist }

/-- `hull`: translate the labels to indices, run `_bitset_convex_hull`,
and translate the resulting bits back to labels in increasing index order
(`bitset_list` followed by `_integers_to_vertices`). -/
def ConvexityProperties.hull {V : Type} (CP : ConvexityProperties V)
    (vertices : List V) : List V :=
  (bitset_list (bitset_convex_hull CP.cache
    ((vertices.map CP.toInt).toFinset))).map CP.verts

/-- One step of `_greedy_increase`: if `i` is not yet in the set and the
hull of the set augmented with `i` is still smaller than `n`, commit `i`. -/
def greedyStep {n : Nat} (cache : Fin n → Fin n → Finset (Fin n))
    (S : Finset (Fin n)) (i : Fin n) : Finset (Fin n) :=
  if i ∉ S ∧ (bitset_convex_hull cache (insert i S)).card < n then insert i S
  else S

/-- `_greedy_increase`: scan all vertices in increasing index order and
greedily add those that keep the hull a proper subset. -/
def greedy_increase {n : Nat} (cache : Fin n → Fin n → Finset (Fin n))
    (S : Finset (Fin n)) : Finset (Fin n) :=
  (List.finRange n).foldl (greedyStep cache) S

/-- A linear constraint as added by `hull_number`: the list of variable
indices with coefficient `1`, and the lower bound (the upper bound is
always absent in the source). -/
abbrev LinearConstraint (n : Nat) : Type :=
  List (Fin n) × Nat

/-- Modelled from the spec: the external 0/1 optimization backend
(spec, External Interfaces; `GenericBackend`/`get_solver` are outside the
analysed source). `hull_number` creates one binary variable per vertex with
objective coefficient `1` and minimizes. A deterministic backend is a
function of the constraints added so far: `solveAssign` gives the 0/1
assignment after `solve()` (`get_variable_value(i) > 0.5` is `true`), and
`objectiveValue` gives `get_objective_value()`, which for an exact solve of
this formulation is the number of selected variables. -/
structure Backend (n : Nat) where
  solveAssign : List (LinearConstraint n) → Fin n → Bool
  objectiveValue : List (LinearConstraint n) → Nat

/-- The `while True` constraint-generation loop of `hull_number`: greedily
enlarge the working set to a maximal proper convex set, add the constraint
that at least one vertex outside it is selected, solve, read the solution,
take its hull, and stop when that hull is the whole vertex set. The fuel
bounds the number of iterations (the source loop may diverge under a
misbehaving backend); `none` means the fuel ran out. -/
def hull_number_loop {n : Nat} (cache : Fin n → Fin n → Finset (Fin n))
    (b : Backend n) :
    Nat → List (LinearConstraint n) → Finset (Fin n) →
      Option (List (LinearConstraint n) × Finset (Fin n))
  | 0, _, _ => none
  | fuel + 1, cs, cur =>
    let C := greedy_increase cache cur
    let cs' := cs ++ [((List.finRange n).filter (fun i => i ∉ C), 1)]
    let S := Finset.univ.filter (fun i => b.solveAssign cs' i = true)
    let h := bitset_convex_hull cache S
    if h.card = n then some (cs', S)
    else hull_number_loop cache b fuel cs' h

/-- `hull_number(value_only)`: if `n ≤ 2` return `n` (or the full vertex
list). Otherwise run the constraint-generation loop starting from the base
constraint (sum of all variables at least `2`) and the working set
`bitset_set_first_n(current_hull, 1)`, then return the objective value or
the selected vertices. `verbose` only prints and is omitted. -/
def ConvexityProperties.hull_number {V : Type} (CP : ConvexityProperties V)
    (b : Backend CP.n) (fuel : Nat) (valueOnly : Bool) : Option (Nat ⊕ List V) :=
  if CP.n ≤ 2 then
    cond valueOnly (some (Sum.inl CP.n))
      (some (Sum.inr ((List.finRange CP.n).map CP.verts)))
  else
    match hull_number_loop CP.cache b fuel
        [((List.finRange CP.n), 2)] (set_first_n CP.n 1) with
    | none => none
    | some (cs, S) =>
      cond valueOnly (some (Sum.inl (b.objectiveValue cs)))
        (some (Sum.inr ((bitset_list S).map CP.verts)))

/-- Distance matrix of the path graph on three vertices `0 - 1 - 2`. -/
def d3 : Fin 3 → Fin 3 → Nat :=
  fun i j => max i.val j.val - min i.val j.val

/-- Cached pair rows for the path graph on three vertices. -/
def cache3 : Fin 3 → Fin 3 → Finset (Fin 3) :=
  cacheRow d3

/-- `ConvexityProperties` instance for the path graph on three vertices,
labelled by the natural numbers `0`, `1`, `2`. -/
def CP3 : ConvexityProperties Nat :=
  { n := 3
    verts := fun i => i.val
    toInt := fun v => ⟨v % 3, Nat.mod_lt v (by decide)⟩
    cache := cache3 }

/-- A concrete exact backend for three variables that always returns the
assignment selecting vertices `0` and `2`, with the objective reported as
the number of selected variables. -/
def B3 : Backend 3 :=
  { solveAssign := fun _ i => decide (i.val ≠ 1)
    objectiveValue := fun _ =>
      (Finset.univ.filter (fun i : Fin 3 => decide (i.val ≠ 1) = true)).card }

/-- `ConvexityProperties` instance with two vertices (a single edge). -/
def CP2 : ConvexityProperties Nat :=
  { n := 2
    verts := fun i => i.val
    toInt := fun v => ⟨v % 2, Nat.mod_lt v (by decide)⟩
    cache := cacheRow (fun i j => max i.val j.val - min i.val j.val) }

/-- A dummy backend on two variables. -/
def B2a : Backend 2 :=
  { solveAssign := fun _ _ => true, objectiveValue := fun _ => 0 }

/-- A second, observably different dummy backend on two variables. -/
def B2b : Backend 2 :=
  { solveAssign := fun _ _ => false, objectiveValue := fun _ => 7 }

/-- A directed graph input on five vertices (the directed 5-cycle of the
spec's test scenario; only the directedness flag matters for construction). -/
def G5 : InputGraph Nat :=
  { directed := true
    n := 5
    verts := fun i => i.val
    toInt := fun v => ⟨v % 5, Nat.mod_lt v (by decide)⟩
    dist := fun i j => (i.val + 5 - j.val) % 5 }

/-! ### Generic fold lemmas -/

theorem rowStep_subset {n : Nat} (cache : Fin n → Fin n → Finset (Fin n))
    (i : Fin n) (T : Finset (Fin n)) (j : Fin n) : T ⊆ rowStep cache i T j := by
  unfold rowStep
  split
  · exact Finset.subset_union_left
  · exact subset_rfl

theorem foldl_subset {n : Nat} {β : Type} (step : Finset (Fin n) → β → Finset (Fin n))
    (hstep : ∀ T b, T ⊆ step T b) :
    ∀ (l : List β) (T : Finset (Fin n)), T ⊆ l.foldl step T := by
  intro l
  induction l with
  | nil => intro T; exact subset_rfl
  | cons b l ih => intro T; exact (hstep T b).trans (ih _)

theorem foldl_preserve {n : Nat} {β : Type} (P : Finset (Fin n) → Prop)
    (step : Finset (Fin n) → β → Finset (Fin n))
    (hstep : ∀ T b, P T → P (step T b)) :
    ∀ (l : List β) (T : Finset (Fin n)), P T → P (l.foldl step T) := by
  intro l
  induction l with
  | nil => intro T h; exact h
  | cons b l ih => intro T h; exact ih _ (hstep T b h)

theorem foldl_fix {n : Nat} {β : Type} (step : Finset (Fin n) → β → Finset (Fin n))
    (hstep : ∀ T b, T ⊆ step T b) :
    ∀ (l : List β) (T : Finset (Fin n)), l.foldl step T = T → ∀ b ∈ l, step T b = T := by
  intro l
  induction l with
  | nil => intro T _ b hb; simp at hb
  | cons a l ih =>
    intro T hfold b hb
    simp only [List.foldl_cons] at hfold
    have h3 : step T a = T := by
      have h2 : step T a ⊆ l.foldl step (step T a) := foldl_subset step hstep l _
      rw [hfold] at h2
      exact subset_antisymm h2 (hstep T a)
    rcases List.mem_cons.mp hb with rfl | hb
    · exact h3
    · exact ih T (by rw [h3] at hfold; exact hfold) b hb

theorem foldl_empty_fix {n : Nat} {β : Type} (step : Finset (Fin n) → β → Finset (Fin n))
    (hstep : ∀ b, step ∅ b = ∅) : ∀ (l : List β), l.foldl step ∅ = ∅ := by
  intro l
  induction l with
  | nil => rfl
  | cons b l ih => simp only [List.foldl_cons, hstep b]; exact ih

/-! ### Lemmas on one pass of the closure loop -/

theorem onePass_subset {n : Nat} (cache : Fin n → Fin n → Finset (Fin n))
    (S : Finset (Fin n)) : S ⊆ onePass cache S :=
  foldl_subset _
    (fun T i => foldl_subset _ (fun T' j => rowStep_subset cache i T' j) (List.finRange n) T)
    (List.finRange n) S

theorem onePass_subset_of_convex {n : Nat} (cache : Fin n → Fin n → Finset (Fin n))
    {T : Finset (Fin n)} (hT : isConvex cache T) :
    ∀ {S : Finset (Fin n)}, S ⊆ T → onePass cache S ⊆ T := by
  intro S hS
  refine foldl_preserve (fun U => U ⊆ T) _ ?_ _ _ hS
  intro U i hU
  refine foldl_preserve (fun U => U ⊆ T) _ ?_ _ _ hU
  intro U' j hU'
  unfold rowStep
  split
  case isTrue hcond =>
    exact Finset.union_subset hU' (hT i j hcond.1 (hU' hcond.2.1) (hU' hcond.2.2))
  case isFalse => exact hU'

theorem convex_of_onePass_fix {n : Nat} (cache : Fin n → Fin n → Finset (Fin n))
    {S : Finset (Fin n)} (hfix : onePass cache S = S) : isConvex cache S := by
  intro i j hij hi hj
  unfold onePass at hfix
  have houter := foldl_fix _
    (fun T i' => foldl_subset _ (fun T' j' => rowStep_subset cache i' T' j') (List.finRange n) T)
    (List.finRange n) S hfix i (List.mem_finRange i)
  have hinner := foldl_fix _
    (fun T' j' => rowStep_subset cache i T' j') (List.finRange n) S houter j (List.mem_finRange j)
  unfold rowStep at hinner
  rw [if_pos ⟨hij, hi, hj⟩] at hinner
  exact Finset.union_eq_left.mp hinner

theorem rowStep_empty {n : Nat} (cache : Fin n → Fin n → Finset (Fin n))
    (i : Fin n) (j : Fin n) : rowStep cache i ∅ j = ∅ := by
  unfold rowStep
  rw [if_neg]
  simp

theorem onePass_empty {n : Nat} (cache : Fin n → Fin n → Finset (Fin n)) :
    onePass cache (∅ : Finset (Fin n)) = ∅ :=
  foldl_empty_fix _ (fun i => foldl_empty_fix _ (rowStep_empty cache i) _) _

/-! ### Lemmas on the closure loop -/

theorem card_le_n {n : Nat} (S : Finset (Fin n)) : S.card ≤ n := by
  simpa using Finset.card_le_univ S

theorem closureAux_subset {n : Nat} (cache : Fin n → Fin n → Finset (Fin n)) :
    ∀ (f : Nat) (S : Finset (Fin n)), S ⊆ closureAux cache f S := by
  intro f
  induction f with
  | zero => intro S; exact subset_rfl
  | succ f ih =>
    intro S
    unfold closureAux
    split
    · exact onePass_subset cache S
    · exact (onePass_subset cache S).trans (ih _)

theorem closureAux_subset_of_convex {n : Nat} (cache : Fin n → Fin n → Finset (Fin n))
    {T : Finset (Fin n)} (hT : isConvex cache T) :
    ∀ (f : Nat) {S : Finset (Fin n)}, S ⊆ T → closureAux cache f S ⊆ T := by
  intro f
  induction f with
  | zero => intro S hS; exact hS
  | succ f ih =>
    intro S hS
    unfold closureAux
    split
    · exact onePass_subset_of_convex cache hT hS
    · exact ih (onePass_subset_of_convex cache hT hS)

theorem closureAux_fix {n : Nat} (cache : Fin n → Fin n → Finset (Fin n)) :
    ∀ (f : Nat) (S : Finset (Fin n)), n - S.card < f →
      onePass cache (closureAux cache f S) = closureAux cache f S := by
  intro f
  induction f with
  | zero => intro S h; exact absurd h (Nat.not_lt_zero _)
  | succ f ih =>
    intro S hf
    unfold closureAux
    split
    case isTrue hc =>
      have he : S = onePass cache S :=
        Finset.eq_of_subset_of_card_le (onePass_subset cache S) (le_of_eq hc)
      rw [← he]
      exact he.symm
    case isFalse hc =>
      apply ih
      have h1 : S.card ≤ (onePass cache S).card := Finset.card_le_card (onePass_subset cache S)
      have h2 : (onePass cache S).card ≤ n := card_le_n _
      omega

theorem bitset_convex_hull_subset {n : Nat} (cache : Fin n → Fin n → Finset (Fin n))
    (S : Finset (Fin n)) : S ⊆ bitset_convex_hull cache S :=
  closureAux_subset cache (n + 1) S

theorem bitset_convex_hull_fix {n : Nat} (cache : Fin n → Fin n → Finset (Fin n))
    (S : Finset (Fin n)) :
    onePass cache (bitset_convex_hull cache S) = bitset_convex_hull cache S :=
  closureAux_fix cache (n + 1) S (by have := card_le_n S; omega)

theorem bitset_convex_hull_convex {n : Nat} (cache : Fin n → Fin n → Finset (Fin n))
    (S : Finset (Fin n)) : isConvex cache (bitset_convex_hull cache S) :=
  convex_of_onePass_fix cache (bitset_convex_hull_fix cache S)

theorem bitset_convex_hull_min {n : Nat} (cache : Fin n → Fin n → Finset (Fin n))
    {S T : Finset (Fin n)} (hT : isConvex cache T) (hS : S ⊆ T) :
    bitset_convex_hull cache S ⊆ T :=
  closureAux_subset_of_convex cache hT (n + 1) hS

theorem bitset_convex_hull_idem {n : Nat} (cache : Fin n → Fin n → Finset (Fin n))
    (S : Finset (Fin n)) :
    bitset_convex_hull cache (bitset_convex_hull cache S) = bitset_convex_hull cache S :=
  subset_antisymm
    (bitset_convex_hull_min cache (bitset_convex_hull_convex cache S) subset_rfl)
    (bitset_convex_hull_subset cache _)

theorem bitset_convex_hull_univ {n : Nat} (cache : Fin n → Fin n → Finset (Fin n)) :
    bitset_convex_hull cache (Finset.univ : Finset (Fin n)) = Finset.univ :=
  subset_antisymm (Finset.subset_univ _) (bitset_convex_hull_subset cache _)

theorem closureAux_empty {n : Nat} (cache : Fin n → Fin n → Finset (Fin n)) :
    ∀ f : Nat, closureAux cache f (∅ : Finset (Fin n)) = ∅ := by
  intro f
  induction f with
  | zero => rfl
  | succ f ih =>
    unfold closureAux
    rw [onePass_empty, if_pos rfl]

/-! ### The fuel-free loop agrees with the fuel-indexed one -/

theorem closureAux_eq_while {n : Nat} (cache : Fin n → Fin n → Finset (Fin n)) :
    ∀ (f : Nat) (S : Finset (Fin n)), n - S.card < f →
      closureAux cache f S = closureWhile cache S := by
  intro f
  induction f with
  | zero => intro S h; exact absurd h (Nat.not_lt_zero _)
  | succ f ih =>
    intro S hf
    rw [closureWhile]
    unfold closureAux
    by_cases hc : (onePass cache S).card = S.card
    · rw [if_pos hc, dif_pos hc]
    · rw [if_neg hc, dif_neg hc]
      apply ih
      have h1 : S.card ≤ (onePass cache S).card := Finset.card_le_card (onePass_subset cache S)
      have h2 : (onePass cache S).card ≤ n := card_le_n _
      omega

theorem closureWhile_eq_fuel {n : Nat} (cache : Fin n → Fin n → Finset (Fin n))
    (S : Finset (Fin n)) : closureWhile cache S = bitset_convex_hull cache S :=
  (closureAux_eq_while cache (n + 1) S (by have := card_le_n S; omega)).symm

theorem closurePassCount_eq_while {n : Nat} (cache : Fin n → Fin n → Finset (Fin n)) :
    ∀ (f : Nat) (S : Finset (Fin n)), n - S.card < f →
      closurePassCount cache f S = closureWhileCount cache S := by
  intro f
  induction f with
  | zero => intro S h; exact absurd h (Nat.not_lt_zero _)
  | succ f ih =>
    intro S hf
    rw [closureWhileCount]
    unfold closurePassCount
    by_cases hc : (onePass cache S).card = S.card
    · rw [if_pos hc, dif_pos hc]
    · rw [if_neg hc, dif_neg hc]
      have h1 : S.card ≤ (onePass cache S).card := Finset.card_le_card (onePass_subset cache S)
      have h2 : (onePass cache S).card ≤ n := card_le_n _
      rw [ih (onePass cache S) (by omega)]

theorem closurePassCount_le {n : Nat} (cache : Fin n → Fin n → Finset (Fin n)) :
    ∀ (f : Nat) (S : Finset (Fin n)), n - S.card < f →
      closurePassCount cache f S ≤ n - S.card + 1 := by
  intro f
  induction f with
  | zero => intro S h; exact absurd h (Nat.not_lt_zero _)
  | succ f ih =>
    intro S hf
    unfold closurePassCount
    split
    · omega
    case isFalse hc =>
      have h1 : S.card ≤ (onePass cache S).card := Finset.card_le_card (onePass_subset cache S)
      have h2 : (onePass cache S).card ≤ n := card_le_n _
      have h3 := ih (onePass cache S) (by omega)
      omega

theorem closureWhileCount_le {n : Nat} (cache : Fin n → Fin n → Finset (Fin n))
    (S : Finset (Fin n)) : closureWhileCount cache S ≤ max n 1 := by
  rw [← closurePassCount_eq_while cache (n + 1) S (by have := card_le_n S; omega)]
  by_cases hS : S = ∅
  · subst hS
    have h1 : closurePassCount cache (n + 1) (∅ : Finset (Fin n)) = 1 := by
      unfold closurePassCount
      rw [onePass_empty, if_pos rfl]
    omega
  · have h1 : 1 ≤ S.card := Finset.card_pos.mpr (Finset.nonempty_iff_ne_empty.mpr hS)
    have h2 : S.card ≤ n := card_le_n S
    have h3 := closurePassCount_le cache (n + 1) S (by omega)
    omega

/-! ### Lemmas on bitset_list and the label tables -/

theorem bitset_list_toFinset {n : Nat} (S : Finset (Fin n)) :
    (bitset_list S).toFinset = S := by
  ext a
  simp [bitset_list, List.mem_filter]

theorem bitset_list_nodup {n : Nat} (S : Finset (Fin n)) : (bitset_list S).Nodup :=
  (List.nodup_finRange n).filter _

theorem bitset_list_length {n : Nat} (S : Finset (Fin n)) :
    (bitset_list S).length = S.card := by
  have h := List.toFinset_card_of_nodup (bitset_list_nodup S)
  rw [bitset_list_toFinset] at h
  exact h.symm

theorem bitset_list_univ {n : Nat} :
    bitset_list (Finset.univ : Finset (Fin n)) = List.finRange n := by
  unfold bitset_list
  apply List.filter_eq_self.mpr
  intro a _
  simp

theorem bitset_list_empty {n : Nat} : bitset_list (∅ : Finset (Fin n)) = [] := by
  unfold bitset_list
  apply List.filter_eq_nil_iff.mpr
  intro a _
  simp

theorem map_toInt_map_verts {V : Type} (CP : ConvexityProperties V)
    (hinv : ∀ i, CP.toInt (CP.verts i) = i) (l : List (Fin CP.n)) :
    (l.map CP.verts).map CP.toInt = l := by
  rw [List.map_map]
  have h : List.map (CP.toInt ∘ CP.verts) l = List.map id l :=
    List.map_congr_left (fun a _ => hinv a)
  rw [h, List.map_id]

theorem univ_filter_mem {n : Nat} (S : Finset (Fin n)) :
    Finset.univ.filter (fun i : Fin n => i ∈ S) = S := by
  ext a
  simp

/-! ### Lemmas on the greedy expansion -/

theorem greedy_increase_subset {n : Nat} (cache : Fin n → Fin n → Finset (Fin n))
    (S : Finset (Fin n)) : S ⊆ greedy_increase cache S := by
  refine foldl_subset _ ?_ _ S
  intro T i
  unfold greedyStep
  split
  · exact Finset.subset_insert i T
  · exact subset_rfl

theorem greedy_increase_proper {n : Nat} (cache : Fin n → Fin n → Finset (Fin n))
    {S : Finset (Fin n)} (h : (bitset_convex_hull cache S).card < n) :
    (bitset_convex_hull cache (greedy_increase cache S)).card < n := by
  unfold greedy_increase
  refine foldl_preserve (fun T => (bitset_convex_hull cache T).card < n) _ ?_ _ _ h
  intro T i hT
  unfold greedyStep
  split
  case isTrue hcond => exact hcond.2
  case isFalse => exact hT

/-! ### Lemmas on the hull_number loop -/

theorem hull_number_loop_some {n : Nat} (cache : Fin n → Fin n → Finset (Fin n))
    (b : Backend n) :
    ∀ (fuel : Nat) (cs : List (LinearConstraint n)) (cur : Finset (Fin n))
      (csf : List (LinearConstraint n)) (S : Finset (Fin n)),
      hull_number_loop cache b fuel cs cur = some (csf, S) →
      S = Finset.univ.filter (fun i => b.solveAssign csf i = true) ∧
        (bitset_convex_hull cache S).card = n := by
  intro fuel
  induction fuel with
  | zero =>
    intro cs cur csf S h
    exact absurd h (by simp [hull_number_loop])
  | succ fuel ih =>
    intro cs cur csf S h
    simp only [hull_number_loop] at h
    split at h
    case isTrue hc =>
      rw [Option.some.injEq, Prod.mk.injEq] at h
      obtain ⟨h1, h2⟩ := h
      subst h1
      subst h2
      exact ⟨rfl, hc⟩
    case isFalse hc =>
      exact ih _ _ _ _ h

/-! ### Claim theorems -/

/-- C1 (code bug): the general-case loop of `hull_number` is claimed (and
its own source comment says) to start from an empty working set, but the
source initializes it with `bitset_set_first_n(current_hull, 1)`, which
sets exactly the first bit: at the start of the loop the working set is
`{0}`, not empty (evaluated at `n = 3`, the smallest general case). -/
theorem claim_initial_working_set :
    set_first_n 3 1 = ({0} : Finset (Fin 3)) ∧
      set_first_n 3 1 ≠ (∅ : Finset (Fin 3)) := by
  decide

/-- C2: for a symmetric distance matrix with zero diagonal and any pair
`i < j`, bit `k` of the cached row is set iff `d(i,k) + d(k,j) = d(i,j)`;
in particular bits `i` and `j` are always set. -/
theorem claim_cache_bit_iff {n : Nat} (d : Fin n → Fin n → Nat)
    (hsym : ∀ a b, d a b = d b a) (hdiag : ∀ a, d a a = 0)
    {i j : Fin n} (hij : i < j) :
    (∀ k, k ∈ cacheRow d i j ↔ d i k + d k j = d i j) ∧
      i ∈ cacheRow d i j ∧ j ∈ cacheRow d i j := by
  have hlt : i ≠ j := Fin.ne_of_lt hij
  have hmem : ∀ k, k ∈ cacheRow d i j ↔ d i k + d k j = d i j := by
    intro k
    unfold cacheRow
    rw [Finset.mem_filter, hsym j k]
    simp
  refine ⟨hmem, ?_, ?_⟩
  · rw [hmem i, hdiag i]
    simp
  · rw [hmem j, hdiag j]
    simp

/-- Witness for C2: the path graph `0 - 1 - 2` at the pair `(0, 2)`. -/
theorem claim_cache_bit_iff_witness :
    (∀ k, k ∈ cacheRow d3 0 2 ↔ d3 0 k + d3 k 2 = d3 0 2) ∧
      (0 : Fin 3) ∈ cacheRow d3 0 2 ∧ (2 : Fin 3) ∈ cacheRow d3 0 2 :=
  claim_cache_bit_iff d3 (by decide) (by decide) (by decide)

/-- C3: `_bitset_convex_hull` returns a set that is convex for the cached
pair rows, contains the input, and is the smallest such set (the minimal
fixed point of the monotone extensive pass operator). -/
theorem claim_closure_minimal_convex {n : Nat}
    (cache : Fin n → Fin n → Finset (Fin n)) (S : Finset (Fin n)) :
    S ⊆ bitset_convex_hull cache S ∧
      isConvex cache (bitset_convex_hull cache S) ∧
      ∀ T, isConvex cache T → S ⊆ T → bitset_convex_hull cache S ⊆ T :=
  ⟨bitset_convex_hull_subset cache S, bitset_convex_hull_convex cache S,
    fun _ hT hS => bitset_convex_hull_min cache hT hS⟩

/-- C4 counterexample: on the graph with zero vertices the closure loop
still executes one pass (the final pass that detects the fixed point), so
the claimed bound of at most `n` passes fails at `n = 0`. -/
theorem claim_closure_pass_counterexample :
    closureWhileCount (fun _ _ => (∅ : Finset (Fin 0))) (∅ : Finset (Fin 0)) = 1 ∧
      ¬(closureWhileCount (fun _ _ => (∅ : Finset (Fin 0))) (∅ : Finset (Fin 0)) ≤ 0) := by
  have h : closureWhileCount (fun _ _ => (∅ : Finset (Fin 0))) (∅ : Finset (Fin 0)) = 1 := by
    rw [← closurePassCount_eq_while (fun _ _ => (∅ : Finset (Fin 0))) 1 ∅ (by decide)]
    decide
  exact ⟨h, by omega⟩

/-- C4 (amended): the closure loop stops exactly at a fixed point (as soon
as a pass adds no new vertex) and executes at most `max n 1` passes: at
most `n` passes whenever the graph has at least one vertex, and a single
pass on the empty graph. -/
theorem claim_closure_pass_bound {n : Nat}
    (cache : Fin n → Fin n → Finset (Fin n)) (S : Finset (Fin n)) :
    closureWhileCount cache S ≤ max n 1 ∧
      onePass cache (closureWhile cache S) = closureWhile cache S := by
  refine ⟨closureWhileCount_le cache S, ?_⟩
  rw [closureWhile_eq_fuel]
  exact bitset_convex_hull_fix cache S

/-- C7: when the hull of `S` is a proper subset of the vertex set, the
greedy expansion (which scans vertices in increasing index order and
commits a vertex exactly when the augmented hull stays proper) returns a
superset of `S` whose hull is still a proper subset of the vertex set. -/
theorem claim_greedy_proper {n : Nat} (cache : Fin n → Fin n → Finset (Fin n))
    (S : Finset (Fin n)) (h : (bitset_convex_hull cache S).card < n) :
    S ⊆ greedy_increase cache S ∧
      (bitset_convex_hull cache (greedy_increase cache S)).card < n :=
  ⟨greedy_increase_subset cache S, greedy_increase_proper cache h⟩

/-- Witness for C7: the path graph `0 - 1 - 2` starting from `{0}`. -/
theorem claim_greedy_proper_witness :
    (bitset_convex_hull cache3 {0}).card < 3 ∧
      (({0} : Finset (Fin 3)) ⊆ greedy_increase cache3 {0} ∧
        (bitset_convex_hull cache3 (greedy_increase cache3 {0})).card < 3) :=
  ⟨by decide, claim_greedy_proper cache3 {0} (by decide)⟩

/-- C9: constructing on a directed graph always fails with the distinct
`NotImplementedError` message, and no instance is produced. -/
theorem claim_directed_rejected {V : Type} (G : InputGraph V)
    (h : G.directed = true) :
    ConvexityProperties.make G =
      Except.error ("this is currently implemented for Graphs only, " ++
        "but only minor updates are needed if you want " ++
        "to make it support DiGraphs too") ∧
      ∀ CP : ConvexityProperties V, ConvexityProperties.make G ≠ Except.ok CP := by
  unfold ConvexityProperties.make
  rw [if_pos h]
  exact ⟨rfl, fun CP hc => by simp at hc⟩

/-- Witness for C9: a directed graph on five vertices. -/
theorem claim_directed_rejected_witness :
    ConvexityProperties.make G5 =
      Except.error ("this is currently implemented for Graphs only, " ++
        "but only minor updates are needed if you want " ++
        "to make it support DiGraphs too") ∧
      ∀ CP : ConvexityProperties Nat, ConvexityProperties.make G5 ≠ Except.ok CP :=
  claim_directed_rejected G5 rfl

/-- C10: `hull([])` returns `[]`; the closure of the empty bitset stops
after exactly one pass, and that pass consults no cached pair: the loop's
result on the empty set does not depend on the cache at all. -/
theorem claim_hull_empty {V : Type} (CP : ConvexityProperties V) :
    CP.hull [] = [] ∧
      closureWhileCount CP.cache (∅ : Finset (Fin CP.n)) = 1 ∧
      ∀ cache' : Fin CP.n → Fin CP.n → Finset (Fin CP.n),
        closureWhile cache' (∅ : Finset (Fin CP.n)) = ∅ := by
  refine ⟨?_, ?_, ?_⟩
  · unfold ConvexityProperties.hull
    rw [List.map_nil, List.toFinset_nil]
    unfold bitset_convex_hull
    rw [closureAux_empty, bitset_list_empty, List.map_nil]
  · rw [← closurePassCount_eq_while CP.cache (CP.n + 1) ∅
      (by simp only [Finset.card_empty]; omega)]
    unfold closurePassCount
    rw [onePass_empty, if_pos rfl]
  · intro cache'
    rw [closureWhile_eq_fuel]
    unfold bitset_convex_hull
    exact closureAux_empty cache' _

/-- C5: `hull` is idempotent: applying it to its own output returns the
same list. -/
theorem claim_hull_idempotent {V : Type} (CP : ConvexityProperties V)
    (hinv : ∀ i, CP.toInt (CP.verts i) = i) (l : List V) :
    CP.hull (CP.hull l) = CP.hull l := by
  unfold ConvexityProperties.hull
  rw [map_toInt_map_verts CP hinv, bitset_list_toFinset, bitset_convex_hull_idem]

/-- Witness for C5: the path graph `0 - 1 - 2` on the input `[0, 2]`. -/
theorem claim_hull_idempotent_witness :
    CP3.hull (CP3.hull [0, 2]) = CP3.hull [0, 2] :=
  claim_hull_idempotent CP3 (by decide) [0, 2]

/-- C8: for a graph with at most two vertices, `hull_number` returns `n`
(value form) or the full vertex list (set form), and the result does not
depend on the backend or the fuel: the optimization backend is never
invoked. -/
theorem claim_hull_number_small {V : Type} (CP : ConvexityProperties V)
    (h : CP.n ≤ 2) (b b' : Backend CP.n) (fuel fuel' : Nat) (vo : Bool) :
    CP.hull_number b fuel true = some (Sum.inl CP.n) ∧
      CP.hull_number b fuel false =
        some (Sum.inr ((List.finRange CP.n).map CP.verts)) ∧
      CP.hull_number b fuel vo = CP.hull_number b' fuel' vo := by
  refine ⟨?_, ?_, ?_⟩ <;>
    (unfold ConvexityProperties.hull_number; simp only [if_pos h]; try rfl)

/-- Witness for C8: a graph with two vertices and two different backends. -/
theorem claim_hull_number_small_witness :
    CP2.hull_number B2a 4 true = some (Sum.inl CP2.n) ∧
      CP2.hull_number B2a 4 false =
        some (Sum.inr ((List.finRange CP2.n).map CP2.verts)) ∧
      CP2.hull_number B2a 4 true = CP2.hull_number B2b 9 true :=
  claim_hull_number_small CP2 (by decide) B2a B2b 4 9 true

/-- When the constraint-generation loop of `hull_number` returns, the
method's answer for either value of `value_only` is determined by the
final constraint list and the final solver assignment. -/
theorem hull_number_eq_of_loop {V : Type} (CP : ConvexityProperties V)
    (b : Backend CP.n) (fuel : Nat) {cs : List (LinearConstraint CP.n)}
    {S : Finset (Fin CP.n)} (hn : ¬CP.n ≤ 2)
    (hl : hull_number_loop CP.cache b fuel [((List.finRange CP.n), 2)]
      (set_first_n CP.n 1) = some (cs, S)) (vo : Bool) :
    CP.hull_number b fuel vo =
      cond vo (some (Sum.inl (b.objectiveValue cs)))
        (some (Sum.inr ((bitset_list S).map CP.verts))) := by
  unfold ConvexityProperties.hull_number
  rw [if_neg hn, hl]

/-- C6: whenever `hull_number(value_only=False)` returns a vertex list, the
hull of that list is the full vertex set, and `hull_number(value_only=True)`
returns exactly its cardinality — assuming the label tables are mutually
inverse and the backend reports as objective value the number of selected
variables (an exact solve of this 0/1 program, every objective coefficient
being 1). -/
theorem claim_hull_number_generating {V : Type} (CP : ConvexityProperties V)
    (b : Backend CP.n) (fuel : Nat) (L : List V)
    (hinv : ∀ i, CP.toInt (CP.verts i) = i)
    (hobj : ∀ cs, b.objectiveValue cs =
      (Finset.univ.filter (fun i => b.solveAssign cs i = true)).card)
    (hrun : CP.hull_number b fuel false = some (Sum.inr L)) :
    CP.hull L = (List.finRange CP.n).map CP.verts ∧
      CP.hull_number b fuel true = some (Sum.inl L.length) := by
  by_cases hn : CP.n ≤ 2
  · have hfalse : CP.hull_number b fuel false =
        some (Sum.inr ((List.finRange CP.n).map CP.verts)) := by
      unfold ConvexityProperties.hull_number
      rw [if_pos hn]
      rfl
    rw [hfalse, Option.some.injEq, Sum.inr.injEq] at hrun
    subst hrun
    constructor
    · unfold ConvexityProperties.hull
      rw [map_toInt_map_verts CP hinv, List.toFinset_finRange,
        bitset_convex_hull_univ, bitset_list_univ]
    · have htrue : CP.hull_number b fuel true = some (Sum.inl CP.n) := by
        unfold ConvexityProperties.hull_number
        rw [if_pos hn]
        rfl
      rw [htrue, Option.some.injEq, Sum.inl.injEq, List.length_map,
        List.length_finRange]
  · cases hl : hull_number_loop CP.cache b fuel [((List.finRange CP.n), 2)]
        (set_first_n CP.n 1) with
    | none =>
      have hnone : CP.hull_number b fuel false = none := by
        unfold ConvexityProperties.hull_number
        rw [if_neg hn, hl]
      rw [hnone] at hrun
      exact absurd hrun (by simp)
    | some p =>
      obtain ⟨cs, S⟩ := p
      have h1 := hull_number_eq_of_loop CP b fuel hn hl false
      rw [h1, Bool.cond_false, Option.some.injEq, Sum.inr.injEq] at hrun
      subst hrun
      obtain ⟨hSdef, hScard⟩ := hull_number_loop_some CP.cache b fuel _ _ _ _ hl
      have hSuniv : bitset_convex_hull CP.cache S = Finset.univ := by
        apply Finset.eq_univ_of_card
        rw [Fintype.card_fin]
        exact hScard
      constructor
      · unfold ConvexityProperties.hull
        rw [map_toInt_map_verts CP hinv, bitset_list_toFinset, hSuniv,
          bitset_list_univ]
      · have h2 := hull_number_eq_of_loop CP b fuel hn hl true
        rw [Bool.cond_true] at h2
        rw [h2, Option.some.injEq, Sum.inl.injEq, hobj cs, List.length_map,
          bitset_list_length, hSdef]

/-- Witness for C6: the path graph `0 - 1 - 2` with an exact backend that
selects vertices `0` and `2`; the run returns the generating set `[0, 2]`
of size 2, whose hull is the whole graph. -/
theorem claim_hull_number_generating_witness :
    CP3.hull [0, 2] = (List.finRange CP3.n).map CP3.verts ∧
      CP3.hull_number B3 1 true = some (Sum.inl ([0, 2] : List Nat).length) :=
  claim_hull_number_generating CP3 B3 1 [0, 2] (by decide) (fun _ => rfl)
    (by decide)
